import Mathlib

/-
Verification of the spatial-database subsystem of the `genom` reverse
geocoder: the binary codec (the serialization phase of `Builder::build` in
build/builder.rs and `Geocoder::load_database` in src/database.rs), the
builder pipeline (string interning, near-duplicate collapse, postal-code
merge, grid construction) and the runtime query engine (grid keys, 3x3
candidate search, nearest-candidate selection).

Embedding conventions:
- Rust byte streams are `List Nat` with every element below 256.
- Rust `String` is its UTF-8 byte sequence, `List Nat` (`String::len` is the
  byte length).
- `u32`/`u64` are `Nat` with explicit range side conditions; `i16`/`i32` are
  `Int`, with `as iN` casts modelled by explicit wrap/saturate functions.
- Rust `/` on signed integers is truncating division, `Int.tdiv`.
- Fallible decoding returns `Option` (`none` is the decode error).
- `FxHashMap` is an association list; list order stands for iteration order.
-/

namespace Genom

/-- Little-endian byte encoding of an unsigned value into `w` bytes; models
`uNN::to_le_bytes` (the written value is reduced mod 2^(8w), as the Rust type
guarantees). -/
def natLE : Nat → Nat → List Nat
  | 0, _ => []
  | w + 1, n => n % 256 :: natLE w (n / 256)

/-- Little-endian byte decoding; models `uNN::from_le_bytes` on a buffer of
bytes below 256. -/
def fromLE : List Nat → Nat
  | [] => 0
  | b :: bs => b + 256 * fromLE bs

/-- Two's-complement reading of a `w`-byte unsigned value as a signed integer;
models `iNN::from_le_bytes` composed with `uNN::from_le_bytes`. -/
def toSigned (w n : Nat) : Int :=
  if n < 2 ^ (8 * w - 1) then (n : Int) else (n : Int) - 2 ^ (8 * w)

/-- Two's-complement little-endian encoding of a signed value into `w` bytes;
models `iNN::to_le_bytes`. -/
def intLE (w : Nat) (x : Int) : List Nat := natLE w (x % (2 ^ (8 * w) : Int)).toNat

/-- LEB128 encoding loop with an explicit recursion bound (the loop divides
the value by 128 each round, so any bound of at least the value itself is
enough; the bound keeps the definition kernel-executable). -/
def writeVarintAux : Nat → Nat → List Nat
  | 0, n => [n % 128]
  | fuel + 1, n => if n < 128 then [n] else (n % 128 + 128) :: writeVarintAux fuel (n / 128)

/-- LEB128 encoding; models `write_varint` in build/builder.rs: `value & 0x7F`
is `value % 128`, `value >> 7` is `value / 128`, and `byte |= 0x80` adds 128 to
the masked byte. `writeVarint_eq` below recovers the loop's natural recursion
equation. -/
def writeVarint (n : Nat) : List Nat := writeVarintAux n n

/-- A parser over a byte stream: consume a prefix, return the value and the
rest; `none` models a decode error from `std::io::Cursor::read_exact` or a
failed validation. -/
def PFn (α : Type) : Type := List Nat → Option (α × List Nat)

/-- Parser returning a value without consuming input. -/
def pPure {α : Type} (a : α) : PFn α := fun s => some (a, s)

/-- Parser that always fails. -/
def pFail {α : Type} : PFn α := fun _ => none

/-- Sequencing of parsers. -/
def pBind {α β : Type} (p : PFn α) (f : α → PFn β) : PFn β := fun s =>
  match p s with
  | none => none
  | some (a, r) => f a r

/-- Mapping over a parser's result. -/
def pMap {α β : Type} (f : α → β) (p : PFn α) : PFn β := pBind p (fun a => pPure (f a))

/-- Read one byte; models a one-byte `read_exact`. -/
def pByte : PFn Nat := fun s =>
  match s with
  | [] => none
  | b :: r => some (b, r)

/-- Read exactly `n` bytes; models `read_exact` into an `n`-byte buffer. -/
def pTake : Nat → PFn (List Nat)
  | 0 => pPure []
  | n + 1 => pBind pByte fun b => pMap (fun bs => b :: bs) (pTake n)

/-- Read a `w`-byte little-endian unsigned integer. -/
def readU (w : Nat) : PFn Nat := pMap fromLE (pTake w)

/-- Read a `w`-byte little-endian signed integer. -/
def readI (w : Nat) : PFn Int := pMap (toSigned w) (readU w)

/-- Accumulator loop of `Geocoder::read_varint` in src/database.rs:
`result |= ((byte & 0x7F) as u64) << shift`. The OR is addition because the
bits already accumulated lie below `shift`, and the `u64` shift keeps only
bits below 64; on every stream produced by `write_varint` (and every prefix of
one) `shift` stays below 64, the only regime the theorems below use. -/
def readVarintAux : List Nat → Nat → Nat → Option (Nat × List Nat)
  | [], _, _ => none
  | b :: r, shift, acc =>
    let acc' := acc + (b % 128) * 2 ^ shift % 2 ^ 64
    if b < 128 then some (acc', r) else readVarintAux r (shift + 7) acc'

/-- models `Geocoder::read_varint`. -/
def readVarint : PFn Nat := fun s => readVarintAux s 0 0

/-- Byte ranges a UTF-8 lead byte requires of its continuation bytes, per the
strict validation of Rust's `String::from_utf8` (overlong encodings,
surrogates and values above U+10FFFF rejected): `none` for an invalid lead
byte, otherwise the (low, high) bounds of each following byte. -/
def utf8Follow (b : Nat) : Option (List (Nat × Nat)) :=
  if b < 128 then some []
  else if b < 194 then none
  else if b < 224 then some [(128, 191)]
  else if b = 224 then some [(160, 191), (128, 191)]
  else if b = 237 then some [(128, 159), (128, 191)]
  else if b < 240 then some [(128, 191), (128, 191)]
  else if b = 240 then some [(144, 191), (128, 191), (128, 191)]
  else if b < 244 then some [(128, 191), (128, 191), (128, 191)]
  else if b = 244 then some [(128, 143), (128, 191), (128, 191)]
  else none

/-- UTF-8 validation automaton of `String::from_utf8`, one byte at a time;
the second argument holds the bounds still expected of continuation bytes.
Only the boolean value of `validUtf8` matters to the theorems below. -/
def validUtf8Aux : List Nat → List (Nat × Nat) → Bool
  | [], pending => pending.isEmpty
  | b :: r, [] =>
    match utf8Follow b with
    | some pending => validUtf8Aux r pending
    | none => false
  | b :: r, (lo, hi) :: pending =>
    if lo ≤ b ∧ b ≤ hi then validUtf8Aux r pending else false

/-- Validity of a byte sequence under `String::from_utf8`. -/
def validUtf8 (s : List Nat) : Bool := validUtf8Aux s []

/-- CompactPlace from src/types.rs: seven `u32` string-table indices and two
`i32` fixed-point coordinates. -/
structure CompactPlace where
  city : Nat
  region : Nat
  region_code : Nat
  district : Nat
  country_code : Nat
  postal_code : Nat
  timezone : Nat
  lat : Int
  lon : Int
deriving DecidableEq, Inhabited

/-- Database from src/types.rs. The `FxHashMap<(i16, i16), Vec<u32>>` grid is
embedded as an association list of (cell key, record ids); the list order
stands for the map's iteration order. -/
structure Database where
  strings : List (List Nat)
  places : List CompactPlace
  grid : List ((Int × Int) × List Nat)
deriving DecidableEq, Inhabited

/-- Hash-map lookup on an association list, defaulting to the empty list for
an absent key (a cell with no entry contributes nothing). -/
def alGetD {β : Type} (g : List ((Int × Int) × List β)) (k : Int × Int) : List β :=
  match g.find? (fun e => e.1 = k) with
  | some e => e.2
  | none => []

/-- models `map.entry(k).or_default().push(x)`: append `x` to the entry of `k`,
creating the entry on first insertion. -/
def alPush {β : Type} : List ((Int × Int) × List β) → Int × Int → β → List ((Int × Int) × List β)
  | [], k, x => [(k, [x])]
  | e :: g, k, x => if e.1 = k then (e.1, e.2 ++ [x]) :: g else e :: alPush g k x

/-- models `map.insert(k, v)`: replace the entry of `k`, or add it. -/
def alInsert {β : Type} : List ((Int × Int) × List β) → Int × Int → List β → List ((Int × Int) × List β)
  | [], k, v => [(k, v)]
  | e :: g, k, v => if e.1 = k then (k, v) :: g else e :: alInsert g k v

/-- Serialization of one string table entry (`Builder::build`): varint byte
length, then the raw UTF-8 bytes. -/
def encString (s : List Nat) : List Nat := writeVarint s.length ++ s

/-- Serialization of one record (`Builder::build`): the seven `u32` indices in
field order, then `lat`, `lon` as `i32`, all little-endian. -/
def encPlace (p : CompactPlace) : List Nat :=
  natLE 4 p.city ++ natLE 4 p.region ++ natLE 4 p.region_code ++ natLE 4 p.district ++
    natLE 4 p.country_code ++ natLE 4 p.postal_code ++ natLE 4 p.timezone ++
    intLE 4 p.lat ++ intLE 4 p.lon

/-- Serialization of one grid cell (`Builder::build`): `i16` key pair, 64-bit
count, then the ids as `u32`. -/
def encCell (c : (Int × Int) × List Nat) : List Nat :=
  intLE 2 c.1.1 ++ intLE 2 c.1.2 ++ natLE 8 c.2.length ++ c.2.flatMap (natLE 4)

/-- The serialization phase of `Builder::build`: 64-bit little-endian counts,
string section, record section, grid section. -/
def encodeDb (db : Database) : List Nat :=
  natLE 8 db.strings.length ++ db.strings.flatMap encString ++
    natLE 8 db.places.length ++ db.places.flatMap encPlace ++
    natLE 8 db.grid.length ++ db.grid.flatMap encCell

/-- Run a parser `n` times, collecting the results; models the `for _ in
0..count` loops of `load_database`. -/
def pCount {α : Type} (q : PFn α) : Nat → PFn (List α)
  | 0 => pPure []
  | n + 1 => pBind q fun a => pMap (fun as => a :: as) (pCount q n)

/-- One iteration of the string loop of `load_database`: varint length, the
bytes, then the `String::from_utf8` validation. -/
def pString : PFn (List Nat) :=
  pBind readVarint fun len =>
    pBind (pTake len) fun bs => if validUtf8 bs then pPure bs else pFail

/-- One iteration of the record loop of `load_database`. -/
def pPlace : PFn CompactPlace :=
  pBind (readU 4) fun city =>
    pBind (readU 4) fun region =>
      pBind (readU 4) fun region_code =>
        pBind (readU 4) fun district =>
          pBind (readU 4) fun country_code =>
            pBind (readU 4) fun postal_code =>
              pBind (readU 4) fun timezone =>
                pBind (readI 4) fun lat =>
                  pMap
                    (fun lon =>
                      CompactPlace.mk city region region_code district country_code
                        postal_code timezone lat lon)
                    (readI 4)

/-- One iteration of the grid loop of `load_database`: `i16` key pair, 64-bit
count, the ids. -/
def pCell : PFn ((Int × Int) × List Nat) :=
  pBind (readI 2) fun klat =>
    pBind (readI 2) fun klon =>
      pBind (readU 8) fun n => pMap (fun ids => ((klat, klon), ids)) (pCount (readU 4) n)

/-- `Geocoder::load_database` as a parser: the three sections in order; the
grid entries are inserted into the map one by one. Trailing bytes after the
grid section are not inspected, as in the source. -/
def pDatabase : PFn Database :=
  pBind (readU 8) fun nStr =>
    pBind (pCount pString nStr) fun strings =>
      pBind (readU 8) fun nPl =>
        pBind (pCount pPlace nPl) fun places =>
          pBind (readU 8) fun nG =>
            pMap
              (fun cells =>
                Database.mk strings places (cells.foldl (fun g c => alInsert g c.1 c.2) []))
              (pCount pCell nG)

/-- `Geocoder::load_database`: `Ok`/`Err` as `some`/`none`. -/
def loadDatabase (s : List Nat) : Option Database := (pDatabase s).map Prod.fst

/-- Range side conditions carried by the Rust types of `CompactPlace`'s
fields (`u32` indices, `i32` coordinates). -/
def WFplace (p : CompactPlace) : Prop :=
  p.city < 2 ^ 32 ∧ p.region < 2 ^ 32 ∧ p.region_code < 2 ^ 32 ∧ p.district < 2 ^ 32 ∧
    p.country_code < 2 ^ 32 ∧ p.postal_code < 2 ^ 32 ∧ p.timezone < 2 ^ 32 ∧
    -(2 ^ 31) ≤ p.lat ∧ p.lat < 2 ^ 31 ∧ -(2 ^ 31) ≤ p.lon ∧ p.lon < 2 ^ 31

/-- Range side conditions carried by the Rust types of a grid entry
(`(i16, i16)` key, `Vec<u32>` of ids, `usize` length). -/
def WFcell (c : (Int × Int) × List Nat) : Prop :=
  -(2 ^ 15) ≤ c.1.1 ∧ c.1.1 < 2 ^ 15 ∧ -(2 ^ 15) ≤ c.1.2 ∧ c.1.2 < 2 ^ 15 ∧
    c.2.length < 2 ^ 64 ∧ ∀ i ∈ c.2, i < 2 ^ 32

/-- Well-formedness of a `Database` value as the builder produces it: the
range conditions of the Rust types, UTF-8 validity of the interned strings
(Rust `String`s), and distinct grid keys (a hash map's entries). -/
def WFdb (db : Database) : Prop :=
  db.strings.length < 2 ^ 64 ∧ (∀ s ∈ db.strings, s.length < 2 ^ 64 ∧ validUtf8 s = true) ∧
    db.places.length < 2 ^ 64 ∧ (∀ p ∈ db.places, WFplace p) ∧
    db.grid.length < 2 ^ 64 ∧ (∀ c ∈ db.grid, WFcell c) ∧ (db.grid.map Prod.fst).Nodup

/-- models the Rust cast `as i16`: wrap to the 16-bit signed range. -/
def wrap16 (x : Int) : Int := (x + 2 ^ 15) % 2 ^ 16 - 2 ^ 15

/-- models the saturating float-to-integer cast `as i32` applied to an
already-truncated value. -/
def sat32 (x : Int) : Int := max (-(2 ^ 31)) (min x (2 ^ 31 - 1))

/-- One component of the build-time cell key, from `Builder::build_grid`
(`(place.lat / 10000) as i16`): Rust's truncating `i32` division, then the
cast to `i16`. The same expression keys the postal grid in
`Builder::merge_postal_codes`. -/
def cellComp (v : Int) : Int := wrap16 (v.tdiv 10000)

/-- Truncation of a rational toward zero, the rounding used by Rust's
float-to-integer `as` casts. -/
def ratTrunc (q : ℚ) : Int := if 0 ≤ q then ⌊q⌋ else ⌈q⌉

/-- Modelled from the source's `(location.latitude * 100000.0) as i32` in
`Geocoder::grid_key` (src/database.rs): the f64 product read in exact
rational arithmetic, the cast as truncation toward zero saturated to the i32
range. At inputs where the binary64 product is exact — in particular every
input the theorems below evaluate it on — this agrees with the
floating-point code bit for bit. -/
def toFixed (degrees : ℚ) : Int := sat32 (ratTrunc (degrees * 100000))

/-- One component of the query-time cell key, from `Geocoder::grid_key`
(`(fixed / 10000) as i16` applied to the i32 produced by the cast). -/
def queryComp (v : Int) : Int := wrap16 (v.tdiv 10000)

/-- The full query-time grid key of `Geocoder::grid_key`. -/
def gridKey (latitude longitude : ℚ) : Int × Int :=
  (queryComp (toFixed latitude), queryComp (toFixed longitude))

/-- Build-time cell key of a record (`Builder::build_grid`). -/
def placeKey (p : CompactPlace) : Int × Int := (cellComp p.lat, cellComp p.lon)

/-- Spatial grid construction, `Builder::build_grid`: for each record index in
order, push the index onto the list of the cell computed from the record's
own coordinates. -/
def buildGrid (places : List CompactPlace) : List ((Int × Int) × List Nat) :=
  (List.range places.length).foldl
    (fun g i => alPush g (placeKey (places.getD i default)) i) []

/-- Offsets of the 3x3 cell neighborhood in iteration order: `-1..=1` outer
over latitude, inner over longitude. -/
def offsets : List (Int × Int) :=
  ([-1, 0, 1] : List Int).flatMap fun dlat => ([-1, 0, 1] : List Int).map fun dlon => (dlat, dlon)

/-- Candidate record ids scanned by `Geocoder::find_nearest`: the contents of
the query cell and its eight neighbors concatenated in iteration order;
absent cells contribute nothing. -/
def candidates (grid : List ((Int × Int) × List Nat)) (key : Int × Int) : List Nat :=
  offsets.flatMap fun d => alGetD grid (key.1 + d.1, key.2 + d.2)

/-- One step of `Iterator::min_by` under the distance comparison: keep the
earlier element unless the new one is strictly smaller, so ties keep the
first minimum, as `min_by` documents. The comparison is `partial_cmp`'s
order on the non-NaN values it is defined on, a linear order. -/
def minStep {α β : Type} [LinearOrder β] (acc : Option (α × β)) (x : α × β) : Option (α × β) :=
  match acc with
  | none => some x
  | some a => if x.2 < a.2 then some x else some a

/-- `Geocoder::find_nearest` with the distance function as a parameter: map
each candidate id to (id, distance) and select the minimum by distance.
`dist i` stands for `location.distance_to(&self.db.places[i].location())`,
the haversine great-circle distance, of which the selection logic uses only
comparisons. -/
def findNearest {β : Type} [LinearOrder β] (dist : Nat → β)
    (grid : List ((Int × Int) × List Nat)) (key : Int × Int) : Option Nat :=
  (((candidates grid key).map fun i => (i, dist i)).foldl minStep none).map Prod.fst

/-- The fields `Geocoder::build_place` resolves and passes on: the record's
seven string indices resolved through the string table, plus its fixed-point
coordinates (divided by 100000 only at the f64 boundary). Modelled from the
spec: the enrichment collaborator `enrich(rawFields) -> EnrichedPlace`
(the `enrichment` module is outside the core) is a pure function of exactly
these fields, so the model returns the fields themselves. -/
structure PlaceFields where
  city : List Nat
  region : List Nat
  region_code : List Nat
  district : List Nat
  country_code : List Nat
  postal_code : List Nat
  timezone : List Nat
  lat : Int
  lon : Int
deriving DecidableEq, Inhabited

/-- `Geocoder::build_place` (vector indexing embedded totally via `getD`;
claim C10 concerns the in-range discipline of these accesses). -/
def buildPlace (db : Database) (idx : Nat) : PlaceFields :=
  { city := db.strings.getD (db.places.getD idx default).city []
    region := db.strings.getD (db.places.getD idx default).region []
    region_code := db.strings.getD (db.places.getD idx default).region_code []
    district := db.strings.getD (db.places.getD idx default).district []
    country_code := db.strings.getD (db.places.getD idx default).country_code []
    postal_code := db.strings.getD (db.places.getD idx default).postal_code []
    timezone := db.strings.getD (db.places.getD idx default).timezone []
    lat := (db.places.getD idx default).lat
    lon := (db.places.getD idx default).lon }

/-- `Geocoder::lookup` with the query's cell key and the distance function as
arguments: the key is `grid_key` of the query point (cf. `gridKey`), the
distance is the haversine `distance_to`. -/
def lookupAt {β : Type} [LinearOrder β] (db : Database) (dist : Nat → β) (key : Int × Int) :
    Option PlaceFields :=
  (findNearest dist db.grid key).map (buildPlace db)

/-- TempPlace from build/builder.rs: the raw builder-time record. String
fields are UTF-8 byte sequences (`String::len` is the byte length),
coordinates fixed-point `i32`. -/
structure TempPlace where
  city : List Nat
  region : List Nat
  region_code : List Nat
  district : List Nat
  country_code : List Nat
  postal_code : List Nat
  timezone : List Nat
  lat : Int
  lon : Int
deriving DecidableEq, Inhabited

/-- The comparator of `Builder::deduplicate_places`: city byte length
descending, then `postal_code.is_empty()` ascending (a record with a postal
code sorts before one without). -/
def cmpPlace (a b : TempPlace) : Ordering :=
  (compare b.city.length a.city.length).then (compare a.postal_code.isEmpty b.postal_code.isEmpty)

/-- The not-greater relation induced by the comparator; Rust's stable
`sort_by(cmp)` is modelled by the stable merge sort under this relation. -/
def placeLe (a b : TempPlace) : Bool := cmpPlace a b ≠ Ordering.gt

/-- The ~1 km deduplication cell of `deduplicate_places`:
`(p.lat / 1000, p.lon / 1000)` with truncating `i32` division. -/
def dedupKey (p : TempPlace) : Int × Int := (p.lat.tdiv 1000, p.lon.tdiv 1000)

/-- The retain loop of `deduplicate_places`: keep a record iff its cell has
not been seen before, threading the set of seen cells
(`seen.insert(key, ()).is_none()`). -/
def retainFirst : List TempPlace → List (Int × Int) → List TempPlace
  | [], _ => []
  | p :: rest, seen =>
    if dedupKey p ∈ seen then retainFirst rest seen
    else p :: retainFirst rest (dedupKey p :: seen)

/-- `Builder::deduplicate_places`: stable sort by the comparator, then keep
the first record seen per ~1 km cell. -/
def deduplicatePlaces (places : List TempPlace) : List TempPlace :=
  retainFirst (places.mergeSort placeLe) []

/-- PostalCode from build/builder.rs. -/
structure PostalCode where
  country : List Nat
  code : List Nat
  district : List Nat
  lat : Int
  lon : Int
deriving DecidableEq, Inhabited

/-- Cell key of a postal record in `merge_postal_codes`
(`(postal.lat / 10000) as i16`, same expression as the place key). -/
def postalKey (p : PostalCode) : Int × Int := (cellComp p.lat, cellComp p.lon)

/-- The temporary postal grid of `merge_postal_codes`: each record pushed
onto its cell's list in input order. -/
def buildPostalGrid (codes : List PostalCode) : List ((Int × Int) × List PostalCode) :=
  codes.foldl (fun g c => alPush g (postalKey c) c) []

/-- Squared planar distance in fixed-point space,
`dlat * dlat + dlon * dlon`. The source computes it in f64 on i32-derived
values; for coordinates in the geographic fixed-point range every
intermediate is an integer below 2^53, so the f64 arithmetic is exact and
this integer model agrees with it. -/
def sqDist (place : TempPlace) (postal : PostalCode) : Int :=
  (place.lat - postal.lat) * (place.lat - postal.lat) +
    (place.lon - postal.lon) * (place.lon - postal.lon)

/-- The same-country candidates `merge_postal_codes` scans for one place: the
place's cell and its eight neighbors in loop order, each cell's postal list
filtered to the place's country code. -/
def postalCandidates (codes : List PostalCode) (place : TempPlace) : List PostalCode :=
  offsets.flatMap fun d =>
    (alGetD (buildPostalGrid codes) (cellComp place.lat + d.1, cellComp place.lon + d.2)).filter
      fun c => c.country = place.country_code

/-- The per-place body of `merge_postal_codes`: scan the candidates keeping
the first strict minimum of squared distance (`is_none_or(|(_, d)| dist < d)`),
then attach the winner's postal code and, when the place's district is
empty, its district; with no candidate the place is returned unchanged. -/
def mergeOne (codes : List PostalCode) (place : TempPlace) : TempPlace :=
  match (postalCandidates codes place).foldl (fun acc c => minStep acc (c, sqDist place c)) none with
  | none => place
  | some (c, _) =>
    { place with
      postal_code := c.code
      district := if place.district.isEmpty then c.district else place.district }

/-- `Builder::merge_postal_codes` over the whole place list. -/
def mergePostalCodes (places : List TempPlace) (codes : List PostalCode) : List TempPlace :=
  places.map (mergeOne codes)

/-- The interner state of `Builder::intern_strings`: the string-to-index map
and the string table. The hash map is an association list. -/
structure InternState where
  map : List (List Nat × Nat)
  strings : List (List Nat)
deriving DecidableEq, Inhabited

/-- `intern_string` in build/builder.rs:
`*map.entry(s).or_insert_with(|| { let idx = strings.len() as u32; strings.push(s); idx })`.
A fresh entry is added at the front of the association list (a hash map's
entry order is immaterial). Returns the index and the updated state. -/
def internString (s : List Nat) (st : InternState) : Nat × InternState :=
  match st.map.find? (fun e => e.1 = s) with
  | some e => (e.2, st)
  | none => (st.strings.length, ⟨(s, st.strings.length) :: st.map, st.strings ++ [s]⟩)

/-- Interning a sequence of values in order from a given state, as
`Builder::intern_strings` does with the seven string fields of each place. -/
def runIntern (l : List (List Nat)) (st : InternState) : InternState :=
  l.foldl (fun st s => (internString s st).2) st

/-- The empty interner state `intern_strings` starts from. -/
def internInit : InternState := ⟨[], []⟩

/-- A small concrete well-formed database used by the witnesses. -/
def exDb : Database :=
  ⟨[[65, 66], []], [⟨0, 1, 1, 1, 1, 1, 1, 12345, -5000⟩], [((1, -1), [0])]⟩

/-- A structurally well-formed byte stream whose grid references record id 7
while the record section is empty: counts 0, 0, 1; cell key (0, 0); one id. -/
def oorStream : List Nat :=
  [0, 0, 0, 0, 0, 0, 0, 0,
   0, 0, 0, 0, 0, 0, 0, 0,
   1, 0, 0, 0, 0, 0, 0, 0,
   0, 0, 0, 0,
   1, 0, 0, 0, 0, 0, 0, 0,
   7, 0, 0, 0]

/-- The database `load_database` produces from `oorStream`. -/
def oorDb : Database := ⟨[], [], [((0, 0), [7])]⟩

instance (p : CompactPlace) : Decidable (WFplace p) := by unfold WFplace; infer_instance

instance (c : (Int × Int) × List Nat) : Decidable (WFcell c) := by unfold WFcell; infer_instance

instance (db : Database) : Decidable (WFdb db) := by unfold WFdb; infer_instance

/-- The winner criterion of the near-duplicate collapse: a strictly longer
city name, or, at equal city-name byte lengths, a non-empty postal code
against an empty one. -/
def beats (w l : TempPlace) : Prop :=
  l.city.length < w.city.length ∨
    (w.city.length = l.city.length ∧ w.postal_code ≠ [] ∧ l.postal_code = [])

instance (w l : TempPlace) : Decidable (beats w l) := by unfold beats; infer_instance

/-- Invariant of the interner state: the table has no duplicates, every map
entry points at the table slot holding its key, and every table entry has a
map entry. -/
def InternInv (st : InternState) : Prop :=
  st.strings.Nodup ∧ (∀ e ∈ st.map, e.2 < st.strings.length ∧ st.strings.getD e.2 [] = e.1) ∧
    ∀ t ∈ st.strings, ∃ e ∈ st.map, e.1 = t

/-- Correct parsing of a byte segment: the parser consumes exactly the
segment `a` (whatever follows), producing `x`, and fails on every strict
prefix of `a` (it runs out of input before completing). -/
structure Parses {α : Type} (p : PFn α) (a : List Nat) (x : α) : Prop where
  run_eq : ∀ r, p (a ++ r) = some (x, r)
  short : ∀ q, q <+: a → q ≠ a → p q = none


theorem prefix_split {α : Type} {q a b : List α} (h : q <+: a ++ b) :
    q <+: a ∨ ∃ q', q = a ++ q' ∧ q' <+: b := by
  obtain ⟨t, ht⟩ := h
  rcases List.append_eq_append_iff.mp ht with ⟨w, hw1, _hw2⟩ | ⟨w, hw1, hw2⟩
  · exact Or.inl ⟨w, hw1.symm⟩
  · exact Or.inr ⟨w, hw1, ⟨t, hw2.symm⟩⟩

theorem perm_pair_cases {α : Type} {xs : List α} {a b : α} (h : xs.Perm [a, b]) :
    xs = [a, b] ∨ xs = [b, a] := by
  have hlen := h.length_eq
  match xs, hlen with
  | [x, y], _ =>
    have hmem : a ∈ [x, y] := h.symm.subset (by simp)
    rcases List.mem_pair.mp hmem with rfl | rfl
    · have := h.cons_inv
      obtain rfl : y = b := by simpa using this
      exact Or.inl rfl
    · have hswap : [x, a].Perm [a, x] := List.Perm.swap a x []
      have := (hswap.symm.trans h).cons_inv
      obtain rfl : x = b := by simpa using this
      exact Or.inr rfl

theorem natLE_length (w n : Nat) : (natLE w n).length = w := by
  induction w generalizing n with
  | zero => rfl
  | succ w ih => simp [natLE, ih]

theorem fromLE_natLE (w n : Nat) (h : n < 2 ^ (8 * w)) : fromLE (natLE w n) = n := by
  induction w generalizing n with
  | zero =>
    simp only [natLE, fromLE]
    omega
  | succ w ih =>
    have hp : 2 ^ (8 * (w + 1)) = 2 ^ (8 * w) * 256 := by
      rw [show 8 * (w + 1) = 8 * w + 8 by omega, pow_add]
      norm_num
    simp only [natLE, fromLE]
    rw [ih (n / 256) (by omega)]
    omega

theorem toSigned_intLE (w : Nat) (hw : 0 < w) (x : Int)
    (h1 : -(2 ^ (8 * w - 1)) ≤ x) (h2 : x < 2 ^ (8 * w - 1)) :
    toSigned w (fromLE (natLE w (x % (2 ^ (8 * w) : Int)).toNat)) = x := by
  have hsplit : 8 * w = (8 * w - 1) + 1 := by omega
  have hNP : (2 ^ (8 * w) : Int) = 2 ^ (8 * w - 1) * 2 := by
    conv_lhs => rw [hsplit]
    rw [pow_succ]
  have hPpos : (0 : Int) < 2 ^ (8 * w - 1) := by positivity
  have hNpos : (0 : Int) < 2 ^ (8 * w) := by positivity
  have hmod : x % (2 ^ (8 * w) : Int) = if 0 ≤ x then x else x + 2 ^ (8 * w) := by
    split
    · exact Int.emod_eq_of_lt (by assumption) (by omega)
    · have : x % (2 ^ (8 * w) : Int) = (x + 2 ^ (8 * w) * 1) % 2 ^ (8 * w) := by
        rw [Int.add_mul_emod_self_left]
      rw [this, mul_one]
      exact Int.emod_eq_of_lt (by omega) (by omega)
  set m : Nat := (x % (2 ^ (8 * w) : Int)).toNat with hm
  have hmle : (m : Int) = x % (2 ^ (8 * w) : Int) := by
    rw [hm]
    exact Int.toNat_of_nonneg (Int.emod_nonneg x (by positivity))
  have hmlt : m < 2 ^ (8 * w) := by
    have := Int.emod_lt_of_pos x hNpos
    have hc : (m : Int) < (2 ^ (8 * w) : Int) := by omega
    exact_mod_cast hc
  rw [fromLE_natLE w m hmlt]
  unfold toSigned
  have hc2 : ((2 ^ (8 * w - 1) : Nat) : Int) = (2 ^ (8 * w - 1) : Int) := by push_cast; ring
  have hc3 : ((2 ^ (8 * w) : Nat) : Int) = (2 ^ (8 * w) : Int) := by push_cast; ring
  split
  · rename_i hlt
    have : (m : Int) < 2 ^ (8 * w - 1) := by
      have := (Nat.cast_lt (α := Int)).mpr hlt
      omega
    omega
  · rename_i hge
    have : ¬ (m : Int) < 2 ^ (8 * w - 1) := by
      intro hcon
      have : m < 2 ^ (8 * w - 1) := by exact_mod_cast hcon
      exact hge this
    omega


theorem writeVarintAux_irrel (f1 : Nat) : ∀ f2 n : Nat, n ≤ f1 → n ≤ f2 →
    writeVarintAux f1 n = writeVarintAux f2 n := by
  induction f1 with
  | zero =>
    intro f2 n h1 _
    have : n = 0 := by omega
    subst this
    cases f2 with
    | zero => rfl
    | succ f2 => simp [writeVarintAux]
  | succ f1 ih =>
    intro f2 n h1 h2
    cases f2 with
    | zero =>
      have : n = 0 := by omega
      subst this
      simp [writeVarintAux]
    | succ f2 =>
      simp only [writeVarintAux]
      by_cases h : n < 128
      · simp [h]
      · simp only [if_neg h]
        have hd := Nat.div_lt_self (show 0 < n by omega) (show 1 < 128 by omega)
        exact congrArg _ (ih f2 (n / 128) (by omega) (by omega))

theorem writeVarint_eq (n : Nat) :
    writeVarint n = if n < 128 then [n] else (n % 128 + 128) :: writeVarint (n / 128) := by
  unfold writeVarint
  by_cases h : n < 128
  · cases n with
    | zero => simp [writeVarintAux]
    | succ m => simp [writeVarintAux, h]
  · cases n with
    | zero => omega
    | succ m =>
      simp only [writeVarintAux, if_neg h]
      have hd := Nat.div_lt_self (show 0 < m + 1 by omega) (show 1 < 128 by omega)
      exact congrArg _ (writeVarintAux_irrel m ((m + 1) / 128) ((m + 1) / 128) (by omega) le_rfl)

theorem writeVarint_ne_nil (n : Nat) : writeVarint n ≠ [] := by
  rw [writeVarint_eq]
  split <;> simp

theorem readVarintAux_run (n : Nat) : ∀ (r : List Nat) (shift acc : Nat),
    acc < 2 ^ shift → acc + n * 2 ^ shift < 2 ^ 64 →
    readVarintAux (writeVarint n ++ r) shift acc = some (acc + n * 2 ^ shift, r) := by
  induction n using Nat.strong_induction_on with
  | _ n ih =>
    intro r shift acc hacc hbound
    rw [writeVarint_eq]
    by_cases h : n < 128
    · rw [if_pos h]
      simp only [List.cons_append, List.nil_append, readVarintAux]
      rw [Nat.mod_eq_of_lt h, Nat.mod_eq_of_lt (show n * 2 ^ shift < 2 ^ 64 by omega)]
      rw [if_pos h]
      simp
    · rw [if_neg h]
      simp only [List.cons_append, readVarintAux]
      have hm : (n % 128 + 128) % 128 = n % 128 := by omega
      have hmlt : n % 128 * 2 ^ shift ≤ n * 2 ^ shift :=
        Nat.mul_le_mul_right _ (Nat.mod_le n 128)
      rw [hm, Nat.mod_eq_of_lt (show n % 128 * 2 ^ shift < 2 ^ 64 by omega)]
      rw [if_neg (show ¬ n % 128 + 128 < 128 by omega)]
      have hstep : (2 : Nat) ^ (shift + 7) = 2 ^ shift * 128 := by
        rw [pow_add]; norm_num
      have hsplitn : n = 128 * (n / 128) + n % 128 := (Nat.div_add_mod n 128).symm ▸ by omega
      have hacc' : acc + n % 128 * 2 ^ shift < 2 ^ (shift + 7) := by
        have : n % 128 ≤ 127 := by omega
        have h2 : n % 128 * 2 ^ shift ≤ 127 * 2 ^ shift := Nat.mul_le_mul_right _ this
        rw [hstep]
        have hP : 0 < 2 ^ shift := Nat.pos_pow_of_pos shift (by omega)
        nlinarith
      have hval : acc + n % 128 * 2 ^ shift + n / 128 * 2 ^ (shift + 7) =
          acc + n * 2 ^ shift := by
        rw [hstep]
        nlinarith [hsplitn]
      have hrec := ih (n / 128) (Nat.div_lt_self (by omega) (by omega)) r (shift + 7)
        (acc + n % 128 * 2 ^ shift) hacc' (by omega)
      simp only [List.append_eq]
      rw [hrec, hval]

theorem readVarintAux_short (n : Nat) : ∀ (q : List Nat) (shift acc : Nat),
    q <+: writeVarint n → q ≠ writeVarint n → readVarintAux q shift acc = none := by
  induction n using Nat.strong_induction_on with
  | _ n ih =>
    intro q shift acc hq hne
    rw [writeVarint_eq] at hq hne
    by_cases h : n < 128
    · rw [if_pos h] at hq hne
      match q, hq with
      | [], _ => rfl
      | x :: q', hq =>
        obtain ⟨hx, hq'⟩ := List.cons_prefix_cons.mp hq
        rw [List.prefix_nil] at hq'
        subst hx; subst hq'
        exact absurd rfl hne
    · rw [if_neg h] at hq hne
      match q, hq with
      | [], _ => rfl
      | x :: q', hq =>
        obtain ⟨hx, hq'⟩ := List.cons_prefix_cons.mp hq
        subst hx
        have hq'ne : q' ≠ writeVarint (n / 128) := by
          intro hcon; exact hne (by rw [hcon])
        simp only [readVarintAux]
        rw [if_neg (show ¬ n % 128 + 128 < 128 by omega)]
        exact ih (n / 128) (Nat.div_lt_self (by omega) (by omega)) q' _ _ hq' hq'ne

theorem parses_varint {n : Nat} (h : n < 2 ^ 64) : Parses readVarint (writeVarint n) n := by
  constructor
  · intro r
    have := readVarintAux_run n r 0 0 (by norm_num) (by simpa using h)
    simpa using this
  · intro q hq hne
    exact readVarintAux_short n q 0 0 hq hne

theorem parses_pure {α : Type} (x : α) : Parses (pPure x) [] x := by
  constructor
  · intro r; rfl
  · intro q hq hne
    exact absurd (List.prefix_nil.mp hq) hne

theorem parses_bind {α β : Type} {p : PFn α} {f : α → PFn β} {a : List Nat} {x : α}
    {b : List Nat} {y : β} (h1 : Parses p a x) (h2 : Parses (f x) b y) :
    Parses (pBind p f) (a ++ b) y := by
  constructor
  · intro r
    rw [List.append_assoc]
    simp only [pBind, h1.run_eq (b ++ r)]
    exact h2.run_eq r
  · intro q hq hne
    rcases prefix_split hq with hqa | ⟨q', rfl, hq'⟩
    · by_cases he : q = a
      · subst he
        have hb : b ≠ [] := by rintro rfl; exact hne (by simp)
        have hpq : p (q ++ []) = some (x, []) := h1.run_eq []
        rw [List.append_nil] at hpq
        simp only [pBind, hpq]
        exact h2.short [] (List.nil_prefix) (Ne.symm hb)
      · simp only [pBind, h1.short q hqa he]
    · have hne' : q' ≠ b := by rintro rfl; exact hne rfl
      simp only [pBind, h1.run_eq q']
      exact h2.short q' hq' hne'

theorem parses_map {α β : Type} (f : α → β) {p : PFn α} {a : List Nat} {x : α}
    (h : Parses p a x) : Parses (pMap f p) a (f x) := by
  have := parses_bind (f := fun a => pPure (f a)) h (parses_pure (f x))
  simpa [pMap] using this

theorem parses_byte (b : Nat) : Parses pByte [b] b := by
  constructor
  · intro r; rfl
  · intro q hq hne
    match q, hq with
    | [], _ => rfl
    | x :: q', hq =>
      obtain ⟨hx, hq'⟩ := List.cons_prefix_cons.mp hq
      rw [List.prefix_nil] at hq'
      subst hx; subst hq'
      exact absurd rfl hne

theorem parses_take {a : List Nat} : Parses (pTake a.length) a a := by
  induction a with
  | nil => exact parses_pure []
  | cons b t ih =>
    have := parses_bind (f := fun b' => pMap (fun bs => b' :: bs) (pTake t.length))
      (parses_byte b) (parses_map (fun bs => b :: bs) ih)
    simpa [pTake] using this

theorem parses_readU {w n : Nat} (h : n < 2 ^ (8 * w)) : Parses (readU w) (natLE w n) n := by
  have h1 : Parses (pTake (natLE w n).length) (natLE w n) (natLE w n) := parses_take
  rw [natLE_length] at h1
  have h2 := parses_map fromLE h1
  rw [fromLE_natLE w n h] at h2
  exact h2

theorem parses_readI {w : Nat} {x : Int} (hw : 0 < w)
    (h1 : -(2 ^ (8 * w - 1)) ≤ x) (h2 : x < 2 ^ (8 * w - 1)) :
    Parses (readI w) (intLE w x) x := by
  have hm : (x % (2 ^ (8 * w) : Int)).toNat < 2 ^ (8 * w) := by
    have hNpos : (0 : Int) < 2 ^ (8 * w) := by positivity
    have ha := Int.emod_nonneg x (show (2 ^ (8 * w) : Int) ≠ 0 by positivity)
    have hb := Int.emod_lt_of_pos x hNpos
    have : ((x % (2 ^ (8 * w) : Int)).toNat : Int) < (2 ^ (8 * w) : Int) := by
      rw [Int.toNat_of_nonneg ha]; exact hb
    exact_mod_cast this
  have h3 := parses_map (toSigned w) (parses_readU hm)
  have h4 : toSigned w (fromLE (natLE w (x % (2 ^ (8 * w) : Int)).toNat)) = x :=
    toSigned_intLE w hw x h1 h2
  rw [fromLE_natLE w _ hm] at h4
  rw [h4] at h3
  exact h3

theorem parses_count {α : Type} {q : PFn α} {enc : α → List Nat} :
    ∀ {xs : List α}, (∀ x ∈ xs, Parses q (enc x) x) →
      Parses (pCount q xs.length) (xs.flatMap enc) xs := by
  intro xs
  induction xs with
  | nil =>
    intro _
    exact parses_pure []
  | cons x t ih =>
    intro h
    have hx := h x (by simp)
    have ht := ih (fun y hy => h y (by simp [hy]))
    have := parses_bind (f := fun a => pMap (fun as => a :: as) (pCount q t.length))
      hx (parses_map (fun as => x :: as) ht)
    simpa [pCount] using this


theorem parses_string {s : List Nat} (hlen : s.length < 2 ^ 64) (hv : validUtf8 s = true) :
    Parses pString (encString s) s := by
  have h3 : Parses ((fun bs => if validUtf8 bs then pPure bs else pFail) s) [] s := by
    simp only [hv, if_true]
    exact parses_pure s
  have htake : Parses (pTake s.length) s s := parses_take
  have h2 := parses_bind (f := fun bs => if validUtf8 bs then pPure bs else pFail) htake h3
  rw [List.append_nil] at h2
  have h1 := parses_varint hlen
  have := parses_bind
    (f := fun len => pBind (pTake len) fun bs => if validUtf8 bs then pPure bs else pFail) h1 h2
  exact this

theorem parses_place {p : CompactPlace} (h : WFplace p) : Parses pPlace (encPlace p) p := by
  obtain ⟨h1, h2, h3, h4, h5, h6, h7, h8a, h8b, h9a, h9b⟩ := h
  have c9 : Parses (readI 4) (intLE 4 p.lon) p.lon := parses_readI (by omega) (by norm_num at h9a ⊢; omega) (by norm_num at h9b ⊢; omega)
  have c8 : Parses (readI 4) (intLE 4 p.lat) p.lat := parses_readI (by omega) (by norm_num at h8a ⊢; omega) (by norm_num at h8b ⊢; omega)
  have f7 : Parses (readU 4) (natLE 4 p.timezone) p.timezone := parses_readU (by norm_num at h7 ⊢; omega)
  have f6 : Parses (readU 4) (natLE 4 p.postal_code) p.postal_code := parses_readU (by norm_num at h6 ⊢; omega)
  have f5 : Parses (readU 4) (natLE 4 p.country_code) p.country_code := parses_readU (by norm_num at h5 ⊢; omega)
  have f4 : Parses (readU 4) (natLE 4 p.district) p.district := parses_readU (by norm_num at h4 ⊢; omega)
  have f3 : Parses (readU 4) (natLE 4 p.region_code) p.region_code := parses_readU (by norm_num at h3 ⊢; omega)
  have f2 : Parses (readU 4) (natLE 4 p.region) p.region := parses_readU (by norm_num at h2 ⊢; omega)
  have f1 : Parses (readU 4) (natLE 4 p.city) p.city := parses_readU (by norm_num at h1 ⊢; omega)
  have s9 := parses_map
    (fun lon => CompactPlace.mk p.city p.region p.region_code p.district p.country_code
      p.postal_code p.timezone p.lat lon) c9
  have s8 := parses_bind (f := fun lat =>
    pMap (fun lon => CompactPlace.mk p.city p.region p.region_code p.district p.country_code
      p.postal_code p.timezone lat lon) (readI 4)) c8 s9
  have s7 := parses_bind (f := fun timezone =>
    pBind (readI 4) fun lat =>
      pMap (fun lon => CompactPlace.mk p.city p.region p.region_code p.district p.country_code
        p.postal_code timezone lat lon) (readI 4)) f7 s8
  have s6 := parses_bind (f := fun postal_code =>
    pBind (readU 4) fun timezone =>
      pBind (readI 4) fun lat =>
        pMap (fun lon => CompactPlace.mk p.city p.region p.region_code p.district p.country_code
          postal_code timezone lat lon) (readI 4)) f6 s7
  have s5 := parses_bind (f := fun country_code =>
    pBind (readU 4) fun postal_code =>
      pBind (readU 4) fun timezone =>
        pBind (readI 4) fun lat =>
          pMap (fun lon => CompactPlace.mk p.city p.region p.region_code p.district country_code
            postal_code timezone lat lon) (readI 4)) f5 s6
  have s4 := parses_bind (f := fun district =>
    pBind (readU 4) fun country_code =>
      pBind (readU 4) fun postal_code =>
        pBind (readU 4) fun timezone =>
          pBind (readI 4) fun lat =>
            pMap (fun lon => CompactPlace.mk p.city p.region p.region_code district country_code
              postal_code timezone lat lon) (readI 4)) f4 s5
  have s3 := parses_bind (f := fun region_code =>
    pBind (readU 4) fun district =>
      pBind (readU 4) fun country_code =>
        pBind (readU 4) fun postal_code =>
          pBind (readU 4) fun timezone =>
            pBind (readI 4) fun lat =>
              pMap (fun lon => CompactPlace.mk p.city p.region region_code district country_code
                postal_code timezone lat lon) (readI 4)) f3 s4
  have s2 := parses_bind (f := fun region =>
    pBind (readU 4) fun region_code =>
      pBind (readU 4) fun district =>
        pBind (readU 4) fun country_code =>
          pBind (readU 4) fun postal_code =>
            pBind (readU 4) fun timezone =>
              pBind (readI 4) fun lat =>
                pMap (fun lon => CompactPlace.mk p.city region region_code district country_code
                  postal_code timezone lat lon) (readI 4)) f2 s3
  have s1 := parses_bind (f := fun city =>
    pBind (readU 4) fun region =>
      pBind (readU 4) fun region_code =>
        pBind (readU 4) fun district =>
          pBind (readU 4) fun country_code =>
            pBind (readU 4) fun postal_code =>
              pBind (readU 4) fun timezone =>
                pBind (readI 4) fun lat =>
                  pMap (fun lon => CompactPlace.mk city region region_code district country_code
                    postal_code timezone lat lon) (readI 4)) f1 s2
  simpa [pPlace, encPlace, List.append_assoc] using s1

theorem parses_cell {c : (Int × Int) × List Nat} (h : WFcell c) :
    Parses pCell (encCell c) c := by
  obtain ⟨h1a, h1b, h2a, h2b, h3, h4⟩ := h
  have kc1 : Parses (readI 2) (intLE 2 c.1.1) c.1.1 := parses_readI (by omega) (by norm_num at h1a ⊢; omega) (by norm_num at h1b ⊢; omega)
  have kc2 : Parses (readI 2) (intLE 2 c.1.2) c.1.2 := parses_readI (by omega) (by norm_num at h2a ⊢; omega) (by norm_num at h2b ⊢; omega)
  have kn : Parses (readU 8) (natLE 8 c.2.length) c.2.length := parses_readU (by norm_num at h3 ⊢; omega)
  have kids : Parses (pCount (readU 4) c.2.length) (c.2.flatMap (natLE 4)) c.2 :=
    parses_count (fun i hi => parses_readU (by have := h4 i hi; norm_num at this ⊢; omega))
  have s4 := parses_map (fun ids => ((c.1.1, c.1.2), ids)) kids
  have s3 := parses_bind (f := fun n =>
    pMap (fun ids => ((c.1.1, c.1.2), ids)) (pCount (readU 4) n)) kn s4
  have s2 := parses_bind (f := fun klon =>
    pBind (readU 8) fun n =>
      pMap (fun ids => ((c.1.1, klon), ids)) (pCount (readU 4) n)) kc2 s3
  have s1 := parses_bind (f := fun klat =>
    pBind (readI 2) fun klon =>
      pBind (readU 8) fun n =>
        pMap (fun ids => ((klat, klon), ids)) (pCount (readU 4) n)) kc1 s2
  simpa [pCell, encCell, List.append_assoc] using s1

theorem alInsert_append {β : Type} (g : List ((Int × Int) × List β)) (k : Int × Int)
    (v : List β) (h : ∀ e ∈ g, e.1 ≠ k) : alInsert g k v = g ++ [(k, v)] := by
  induction g with
  | nil => rfl
  | cons e t ih =>
    have he : e.1 ≠ k := h e (by simp)
    simp only [alInsert, if_neg he, List.cons_append]
    rw [ih (fun e' he' => h e' (by simp [he']))]

theorem foldl_alInsert_nodup {β : Type} (cells : List ((Int × Int) × List β)) :
    ∀ g : List ((Int × Int) × List β),
      (∀ c ∈ cells, ∀ e ∈ g, e.1 ≠ c.1) → (cells.map Prod.fst).Nodup →
      cells.foldl (fun g c => alInsert g c.1 c.2) g = g ++ cells := by
  induction cells with
  | nil => intro g _ _; simp
  | cons c t ih =>
    intro g hd hn
    simp only [List.foldl_cons]
    rw [alInsert_append g c.1 c.2 (fun e he => hd c (by simp) e he)]
    rw [List.map_cons, List.nodup_cons] at hn
    have hstep := ih (g ++ [(c.1, c.2)])
      (fun c' hc' e he => by
        rcases List.mem_append.mp he with hin | hin
        · exact hd c' (by simp [hc']) e hin
        · simp only [List.mem_singleton] at hin
          subst hin
          intro hcon
          exact hn.1 (hcon ▸ List.mem_map_of_mem Prod.fst hc'))
      hn.2
    rw [hstep]
    simp

theorem parses_encodeDb (db : Database) (h : WFdb db) :
    Parses pDatabase (encodeDb db) db := by
  obtain ⟨h1, h2, h3, h4, h5, h6, h7⟩ := h
  have pstr : Parses (pCount pString db.strings.length) (db.strings.flatMap encString)
      db.strings :=
    parses_count (fun s hs => parses_string (h2 s hs).1 (h2 s hs).2)
  have ppl : Parses (pCount pPlace db.places.length) (db.places.flatMap encPlace) db.places :=
    parses_count (fun p hp => parses_place (h4 p hp))
  have pgr : Parses (pCount pCell db.grid.length) (db.grid.flatMap encCell) db.grid :=
    parses_count (fun c hc => parses_cell (h6 c hc))
  have n1 : Parses (readU 8) (natLE 8 db.strings.length) db.strings.length :=
    parses_readU (by norm_num at h1 ⊢; omega)
  have n2 : Parses (readU 8) (natLE 8 db.places.length) db.places.length :=
    parses_readU (by norm_num at h3 ⊢; omega)
  have n3 : Parses (readU 8) (natLE 8 db.grid.length) db.grid.length :=
    parses_readU (by norm_num at h5 ⊢; omega)
  have hfold : db.grid.foldl (fun g c => alInsert g c.1 c.2) [] = db.grid := by
    have := foldl_alInsert_nodup db.grid [] (by simp) h7
    simpa using this
  have hmk : (fun cells => Database.mk db.strings db.places
      (cells.foldl (fun g c => alInsert g c.1 c.2) [])) db.grid = db := by
    show Database.mk db.strings db.places
      (db.grid.foldl (fun g c => alInsert g c.1 c.2) []) = db
    rw [hfold]
  have s6 := parses_map
    (fun cells => Database.mk db.strings db.places
      (cells.foldl (fun g c => alInsert g c.1 c.2) [])) pgr
  rw [hmk] at s6
  have s5 := parses_bind (f := fun nG =>
    pMap (fun cells => Database.mk db.strings db.places
      (cells.foldl (fun g c => alInsert g c.1 c.2) [])) (pCount pCell nG)) n3 s6
  have s4 := parses_bind (f := fun places =>
    pBind (readU 8) fun nG =>
      pMap (fun cells => Database.mk db.strings places
        (cells.foldl (fun g c => alInsert g c.1 c.2) [])) (pCount pCell nG)) ppl s5
  have s3 := parses_bind (f := fun nPl =>
    pBind (pCount pPlace nPl) fun places =>
      pBind (readU 8) fun nG =>
        pMap (fun cells => Database.mk db.strings places
          (cells.foldl (fun g c => alInsert g c.1 c.2) [])) (pCount pCell nG)) n2 s4
  have s2 := parses_bind (f := fun strings =>
    pBind (readU 8) fun nPl =>
      pBind (pCount pPlace nPl) fun places =>
        pBind (readU 8) fun nG =>
          pMap (fun cells => Database.mk strings places
            (cells.foldl (fun g c => alInsert g c.1 c.2) [])) (pCount pCell nG)) pstr s3
  have s1 := parses_bind (f := fun nStr =>
    pBind (pCount pString nStr) fun strings =>
      pBind (readU 8) fun nPl =>
        pBind (pCount pPlace nPl) fun places =>
          pBind (readU 8) fun nG =>
            pMap (fun cells => Database.mk strings places
              (cells.foldl (fun g c => alInsert g c.1 c.2) [])) (pCount pCell nG)) n1 s2
  simpa [pDatabase, encodeDb, List.append_assoc] using s1

/-- C1: codec round-trip. For every well-formed `Database` value (as the
builder produces: in-range fields, valid UTF-8 strings, distinct grid keys),
decoding the byte stream written by `Builder::build`'s serialization phase
with `Geocoder::load_database` yields the database back: an equal string
table, an equal record sequence, and the grid entry for entry — hence equal
per-cell contents. -/
theorem codec_roundtrip (db : Database) (h : WFdb db) :
    loadDatabase (encodeDb db) = some db := by
  have := (parses_encodeDb db h).run_eq []
  rw [List.append_nil] at this
  simp [loadDatabase, this]

/-- Witness for C1 at a concrete database with two strings, one record and
one grid cell. -/
theorem codec_roundtrip_witness : loadDatabase (encodeDb exDb) = some exDb :=
  codec_roundtrip exDb (by decide)

/-- C9: decode robustness. Every strict prefix of a well-formed encoded
stream is rejected by `load_database` with an error (never a value, never a
panic: the embedding is total); and decoding checks only structural
well-formedness — `oorStream` is accepted although its grid names record id
7 while the record section is empty. -/
theorem decode_truncation_robust :
    (∀ db : Database, WFdb db → ∀ q : List Nat, q <+: encodeDb db → q ≠ encodeDb db →
      loadDatabase q = none) ∧
    loadDatabase oorStream = some oorDb ∧ oorDb.places.length = 0 ∧
      alGetD oorDb.grid (0, 0) = [7] := by
  refine ⟨?_, by decide, by decide, by decide⟩
  intro db h q hq hne
  simp [loadDatabase, (parses_encodeDb db h).short q hq hne]


/-- C2 is false as stated: the claim takes the cell of fixed-point -5000 to
be the mathematical floor -1, but the code's truncating division gives cell
0 at both build time and query time. -/
theorem grid_key_floor_cex :
    cellComp (-5000) = 0 ∧ Int.fdiv (-5000) 10000 = -1 ∧
      cellComp (-5000) ≠ Int.fdiv (-5000) 10000 := by decide

/-- C2 (amended): every cell-key component, at build time
(`Builder::build_grid`) and at query time (`Geocoder::grid_key`), is the
truncating division of the fixed-point coordinate by 10000, cast to `i16` —
the same rule on both sides. It agrees with the floor rule for nonnegative
coordinates and for exact multiples of 10000; for negative non-multiples it
is the truncated quotient (e.g. cell 0 at -5000), not the floor. -/
theorem grid_key_rule (x : Int) :
    cellComp x = wrap16 (x.tdiv 10000) ∧
    queryComp x = cellComp x ∧
    ((0 ≤ x ∨ (10000 : Int) ∣ x) → cellComp x = wrap16 (Int.fdiv x 10000)) ∧
    ∀ lat lon : ℚ, gridKey lat lon = (cellComp (toFixed lat), cellComp (toFixed lon)) := by
  refine ⟨rfl, rfl, ?_, fun lat lon => rfl⟩
  rintro (h | h)
  · rw [show Int.fdiv x 10000 = Int.tdiv x 10000 by
      rw [Int.tdiv_eq_ediv h (by norm_num), Int.fdiv_eq_ediv _ (by norm_num)]]
    rfl
  · obtain ⟨c, rfl⟩ := h
    rw [show Int.fdiv (10000 * c) 10000 = Int.tdiv (10000 * c) 10000 by
      rw [Int.mul_tdiv_cancel_left _ (by norm_num), Int.mul_fdiv_cancel_left _ (by norm_num)]]
    rfl

/-- C3 is false as stated: at 2^-17 degrees (where the binary64 product is
exact) the code's conversion truncates 0.762939453125 to 0, while
round-to-nearest gives 1. -/
theorem fixed_point_round_cex :
    toFixed (1 / 131072) = 0 ∧ round ((1 / 131072 : ℚ) * 100000) = 1 ∧
      toFixed (1 / 131072) ≠ round ((1 / 131072 : ℚ) * 100000) := by
  have hq : ((1 : ℚ) / 131072) * 100000 = 3125 / 4096 := by norm_num
  have hfl : (⌊(3125 / 4096 : ℚ)⌋ : ℤ) = 0 := by
    rw [Int.floor_eq_iff]
    norm_num
  have e1 : toFixed (1 / 131072) = 0 := by
    unfold toFixed ratTrunc sat32
    rw [hq, if_pos (by norm_num : (0 : ℚ) ≤ 3125 / 4096), hfl]
    decide
  have e2 : round ((1 / 131072 : ℚ) * 100000) = 1 := by
    rw [hq, round_eq, show (3125 / 4096 : ℚ) + 1 / 2 = 5173 / 4096 by norm_num,
      Int.floor_eq_iff]
    norm_num
  exact ⟨e1, e2, by rw [e1, e2]; decide⟩

/-- C3 (amended): the query engine's conversion to fixed point truncates
`degrees * 100000` toward zero (floor for nonnegative input, ceiling for
negative input), saturated to the i32 range; within range it differs from
the exact product by less than one unit, but it is not round-to-nearest. -/
theorem fixed_point_truncation (q : ℚ) (h1 : -(2 ^ 31 : ℚ) < q * 100000)
    (h2 : q * 100000 < 2 ^ 31) :
    (0 ≤ q → toFixed q = ⌊q * 100000⌋) ∧ (q < 0 → toFixed q = ⌈q * 100000⌉) ∧
      |(toFixed q : ℚ) - q * 100000| < 1 := by
  have hiff : 0 ≤ q ↔ 0 ≤ q * 100000 := by constructor <;> intro h <;> nlinarith
  have hsatf : 0 ≤ q * 100000 → sat32 ⌊q * 100000⌋ = ⌊q * 100000⌋ := by
    intro h
    have hub : ⌊q * 100000⌋ < 2 ^ 31 := Int.floor_lt.mpr (by push_cast; linarith)
    have hlb : (0 : Int) ≤ ⌊q * 100000⌋ := Int.le_floor.mpr (by push_cast; linarith)
    unfold sat32
    rw [min_eq_left (by omega), max_eq_right (by omega)]
  have hsatc : q * 100000 < 0 → sat32 ⌈q * 100000⌉ = ⌈q * 100000⌉ := by
    intro h
    have hub : ⌈q * 100000⌉ ≤ 0 := Int.ceil_le.mpr (by push_cast; linarith)
    have hlb : -(2 ^ 31 : Int) < ⌈q * 100000⌉ := Int.lt_ceil.mpr (by push_cast; linarith)
    unfold sat32
    rw [min_eq_left (by omega), max_eq_right (by omega)]
  refine ⟨?_, ?_, ?_⟩
  · intro h
    have hv := hiff.mp h
    unfold toFixed ratTrunc
    rw [if_pos hv]
    exact hsatf hv
  · intro h
    have hv : q * 100000 < 0 := by nlinarith
    unfold toFixed ratTrunc
    rw [if_neg (by linarith)]
    exact hsatc hv
  · by_cases hv : 0 ≤ q * 100000
    · have : toFixed q = ⌊q * 100000⌋ := by
        unfold toFixed ratTrunc
        rw [if_pos hv]
        exact hsatf hv
      rw [this, abs_lt]
      have ha := Int.floor_le (q * 100000)
      have hb := Int.lt_floor_add_one (q * 100000)
      constructor <;> linarith
    · have hv' : q * 100000 < 0 := by linarith
      have : toFixed q = ⌈q * 100000⌉ := by
        unfold toFixed ratTrunc
        rw [if_neg hv]
        exact hsatc hv'
      rw [this, abs_lt]
      have ha := Int.le_ceil (q * 100000)
      have hb := Int.ceil_lt_add_one (q * 100000)
      constructor <;> linarith

/-- Witness for C3 (amended) at one quarter degree. -/
theorem fixed_point_truncation_witness :
    (0 ≤ (1 / 4 : ℚ) → toFixed (1 / 4) = ⌊(1 / 4 : ℚ) * 100000⌋) ∧
      ((1 / 4 : ℚ) < 0 → toFixed (1 / 4) = ⌈(1 / 4 : ℚ) * 100000⌉) ∧
      |(toFixed (1 / 4 : ℚ) : ℚ) - (1 / 4) * 100000| < 1 :=
  fixed_point_truncation (1 / 4) (by norm_num) (by norm_num)


theorem foldl_minStep_some {α β : Type} [LinearOrder β] (l : List (α × β)) :
    ∀ a : α × β, ∃ b : α × β, l.foldl minStep (some a) = some b ∧ (b = a ∨ b ∈ l) ∧
      b.2 ≤ a.2 ∧ ∀ x ∈ l, b.2 ≤ x.2 := by
  induction l with
  | nil =>
    intro a
    exact ⟨a, rfl, Or.inl rfl, le_rfl, by simp⟩
  | cons x t ih =>
    intro a
    simp only [List.foldl_cons]
    by_cases h : x.2 < a.2
    · obtain ⟨b, hb1, hb2, hb3, hb4⟩ := ih x
      refine ⟨b, by simpa [minStep, h] using hb1, ?_, le_trans hb3 (le_of_lt h), ?_⟩
      · rcases hb2 with rfl | hb2
        · exact Or.inr (by simp)
        · exact Or.inr (by simp [hb2])
      · intro y hy
        rcases List.mem_cons.mp hy with rfl | hy
        · exact hb3
        · exact hb4 y hy
    · obtain ⟨b, hb1, hb2, hb3, hb4⟩ := ih a
      refine ⟨b, by simpa [minStep, h] using hb1, ?_, hb3, ?_⟩
      · rcases hb2 with rfl | hb2
        · exact Or.inl rfl
        · exact Or.inr (by simp [hb2])
      · intro y hy
        rcases List.mem_cons.mp hy with rfl | hy
        · exact le_trans hb3 (not_lt.mp h)
        · exact hb4 y hy

theorem foldl_minStep_none_some {α β : Type} [LinearOrder β] (l : List (α × β))
    (hne : l ≠ []) :
    ∃ b, l.foldl minStep none = some b ∧ b ∈ l ∧ ∀ x ∈ l, b.2 ≤ x.2 := by
  match l, hne with
  | x :: t, _ =>
    simp only [List.foldl_cons]
    obtain ⟨b, hb1, hb2, hb3, hb4⟩ := foldl_minStep_some t x
    refine ⟨b, by simpa [minStep] using hb1, ?_, ?_⟩
    · rcases hb2 with rfl | hb2
      · simp
      · simp [hb2]
    · intro y hy
      rcases List.mem_cons.mp hy with rfl | hy
      · exact hb3
      · exact hb4 y hy

theorem foldl_minStep_none_iff {α β : Type} [LinearOrder β] (l : List (α × β)) :
    l.foldl minStep none = none ↔ l = [] := by
  constructor
  · intro h
    by_contra hne
    obtain ⟨b, hb1, _⟩ := foldl_minStep_none_some l hne
    rw [h] at hb1
    exact Option.noConfusion hb1
  · rintro rfl
    rfl

/-- C4: lookup miss semantics. `lookup` (run at cell key `key` with distance
function `dist`, cf. `lookupAt`) returns `none` exactly when the nine cells
of the 3x3 neighborhood hold no record id; when at least one candidate
exists it returns `some` of the place built from a candidate record whose
distance is minimal among all candidates. The empty case is the `none`
value of `Option`, not an error. The statement holds for every distance
function into a linear order, in particular the haversine distances the
code compares. -/
theorem lookup_miss_semantics {β : Type} [LinearOrder β] (db : Database) (dist : Nat → β)
    (key : Int × Int) :
    (lookupAt db dist key = none ↔ candidates db.grid key = []) ∧
      (candidates db.grid key ≠ [] →
        ∃ i ∈ candidates db.grid key,
          (∀ j ∈ candidates db.grid key, dist i ≤ dist j) ∧
            lookupAt db dist key = some (buildPlace db i)) := by
  constructor
  · unfold lookupAt findNearest
    rw [Option.map_eq_none', Option.map_eq_none']
    rw [foldl_minStep_none_iff]
    rw [List.map_eq_nil_iff]
  · intro hne
    have hmne : (candidates db.grid key).map (fun i => (i, dist i)) ≠ [] := by
      simpa [List.map_eq_nil_iff] using hne
    obtain ⟨b, hb1, hb2, hb3⟩ :=
      foldl_minStep_none_some ((candidates db.grid key).map (fun i => (i, dist i))) hmne
    obtain ⟨i, hi, rfl⟩ := List.mem_map.mp hb2
    refine ⟨i, hi, ?_, ?_⟩
    · intro j hj
      exact hb3 (j, dist j) (List.mem_map_of_mem _ hj)
    · unfold lookupAt findNearest
      rw [hb1]
      rfl

/-- C6: postal merge postcondition. `merge_postal_codes` maps every place
through the per-place merge; a place with no same-country postal candidate
in the 3x3 neighborhood of its 0.1-degree cell is returned unchanged (its
postal code stays empty), and otherwise the place gets the postal code of a
candidate minimizing the squared planar fixed-point distance, its district
replaced by the winner's exactly when it was empty, all other fields
untouched. -/
theorem postal_merge_postcondition (places : List TempPlace) (codes : List PostalCode)
    (place : TempPlace) :
    mergePostalCodes places codes = places.map (mergeOne codes) ∧
      (postalCandidates codes place = [] → mergeOne codes place = place) ∧
      (postalCandidates codes place ≠ [] →
        ∃ c ∈ postalCandidates codes place,
          (∀ c' ∈ postalCandidates codes place, sqDist place c ≤ sqDist place c') ∧
            mergeOne codes place =
              { place with
                postal_code := c.code
                district := if place.district.isEmpty then c.district
                  else place.district }) := by
  refine ⟨rfl, ?_, ?_⟩
  · intro h
    unfold mergeOne
    rw [h]
    rfl
  · intro hne
    have hfold : (postalCandidates codes place).foldl
        (fun acc c => minStep acc (c, sqDist place c)) none =
        ((postalCandidates codes place).map (fun c => (c, sqDist place c))).foldl
          minStep none := by
      rw [List.foldl_map]
    have hmne : (postalCandidates codes place).map (fun c => (c, sqDist place c)) ≠ [] := by
      simpa [List.map_eq_nil_iff] using hne
    obtain ⟨b, hb1, hb2, hb3⟩ :=
      foldl_minStep_none_some
        ((postalCandidates codes place).map (fun c => (c, sqDist place c))) hmne
    obtain ⟨c, hc, rfl⟩ := List.mem_map.mp hb2
    refine ⟨c, hc, ?_, ?_⟩
    · intro c' hc'
      exact hb3 (c', sqDist place c') (List.mem_map_of_mem _ hc')
    · unfold mergeOne
      rw [hfold, hb1]


theorem alGetD_cons {β : Type} (e : (Int × Int) × List β) (g : List ((Int × Int) × List β))
    (k : Int × Int) : alGetD (e :: g) k = if e.1 = k then e.2 else alGetD g k := by
  by_cases h : e.1 = k
  · simp [alGetD, List.find?_cons_of_pos, h]
  · simp only [alGetD, if_neg h]
    rw [List.find?_cons_of_neg]
    simp [h]

theorem alGetD_alPush {β : Type} (g : List ((Int × Int) × List β)) (k k' : Int × Int) (x : β) :
    alGetD (alPush g k x) k' = if k' = k then alGetD g k' ++ [x] else alGetD g k' := by
  induction g with
  | nil =>
    by_cases h : k' = k
    · subst h
      simp [alPush, alGetD_cons, alGetD]
    · rw [if_neg h]
      show alGetD [(k, [x])] k' = alGetD [] k'
      rw [alGetD_cons, if_neg (fun hc : k = k' => h hc.symm)]
  | cons e g ih =>
    by_cases he : e.1 = k
    · rw [alPush, if_pos he, alGetD_cons, alGetD_cons]
      by_cases h : k' = k
      · subst h
        rw [if_pos he, if_pos rfl, if_pos he]
      · have hek : e.1 ≠ k' := fun hc => h (hc.symm.trans he)
        rw [if_neg hek, if_neg hek, if_neg h]
    · rw [alPush, if_neg he, alGetD_cons]
      by_cases hek : e.1 = k'
      · have h : k' ≠ k := fun hc => he (hek.trans hc)
        rw [if_pos hek, if_neg h, alGetD_cons, if_pos hek]
      · rw [if_neg hek, ih]
        by_cases h : k' = k
        · rw [if_pos h, if_pos h, alGetD_cons, if_neg hek]
        · rw [if_neg h, if_neg h, alGetD_cons, if_neg hek]

theorem buildGrid_char (places : List CompactPlace) (k : Int × Int) :
    alGetD (buildGrid places) k =
      (List.range places.length).filter (fun i => placeKey (places.getD i default) = k) := by
  suffices h : ∀ n : Nat, alGetD ((List.range n).foldl
      (fun g i => alPush g (placeKey (places.getD i default)) i) []) k =
      (List.range n).filter (fun i => placeKey (places.getD i default) = k) from
    h places.length
  intro n
  induction n with
  | zero => rfl
  | succ n ih =>
    rw [List.range_succ, List.foldl_append, List.filter_append]
    simp only [List.foldl_cons, List.foldl_nil, List.filter_cons, List.filter_nil]
    rw [alGetD_alPush]
    by_cases h : placeKey (places.getD n default) = k
    · rw [if_pos h.symm, ih, if_pos (decide_eq_true h)]
    · rw [if_neg (fun hc => h hc.symm), ih, if_neg (fun hc => h (of_decide_eq_true hc))]
      simp

/-- C8: grid completeness. In the grid `build_grid` produces over `N`
records, every record index below `N` appears exactly once in the list of
the cell computed from its own record's coordinates, appears in no other
cell, and every id stored anywhere in the grid is a valid index into the
record array. -/
theorem grid_completeness (places : List CompactPlace) (i : Nat) (h : i < places.length) :
    (alGetD (buildGrid places) (placeKey (places.getD i default))).count i = 1 ∧
      (∀ k, i ∈ alGetD (buildGrid places) k → k = placeKey (places.getD i default)) ∧
      ∀ k j, j ∈ alGetD (buildGrid places) k → j < places.length := by
  refine ⟨?_, ?_, ?_⟩
  · rw [buildGrid_char]
    apply List.count_eq_one_of_mem
    · exact (List.nodup_range _).filter _
    · rw [List.mem_filter]
      exact ⟨List.mem_range.mpr h, by simp⟩
  · intro k hk
    rw [buildGrid_char] at hk
    have := (List.mem_filter.mp hk).2
    simp only [decide_eq_true_eq] at this
    exact this.symm
  · intro k j hj
    rw [buildGrid_char] at hj
    exact List.mem_range.mp (List.mem_filter.mp hj).1

/-- Witness for C8 at the one-record example database. -/
theorem grid_completeness_witness :
    (alGetD (buildGrid exDb.places) (placeKey (exDb.places.getD 0 default))).count 0 = 1 ∧
      (∀ k, 0 ∈ alGetD (buildGrid exDb.places) k →
        k = placeKey (exDb.places.getD 0 default)) ∧
      ∀ k j, j ∈ alGetD (buildGrid exDb.places) k → j < exDb.places.length :=
  grid_completeness exDb.places 0 (by decide)


theorem cmpPlace_gt_iff (a b : TempPlace) : cmpPlace a b = Ordering.gt ↔
    (a.city.length < b.city.length ∨
      (a.city.length = b.city.length ∧ a.postal_code.isEmpty = true ∧
        b.postal_code.isEmpty = false)) := by
  unfold cmpPlace
  rcases Nat.lt_trichotomy a.city.length b.city.length with h | h | h
  · rw [Nat.compare_eq_gt.mpr h]
    simp only [Ordering.then]
    simp [h]
  · rw [Nat.compare_eq_eq.mpr h.symm]
    simp only [Ordering.then]
    cases hA : a.postal_code.isEmpty <;> cases hB : b.postal_code.isEmpty <;>
      simp [h, hA, hB] <;> first | decide | omega
  · rw [Nat.compare_eq_lt.mpr h]
    simp only [Ordering.then]
    constructor
    · intro hc; exact absurd hc (by decide)
    · rintro (hc | ⟨hc, _⟩) <;> omega

theorem placeLe_iff (a b : TempPlace) : placeLe a b = true ↔
    (b.city.length < a.city.length ∨
      (a.city.length = b.city.length ∧
        (a.postal_code.isEmpty = false ∨ b.postal_code.isEmpty = true))) := by
  unfold placeLe
  rw [decide_eq_true_eq]
  rw [show (cmpPlace a b ≠ Ordering.gt) = ¬(cmpPlace a b = Ordering.gt) from rfl]
  rw [cmpPlace_gt_iff]
  cases hA : a.postal_code.isEmpty <;> cases hB : b.postal_code.isEmpty <;>
    simp [hA, hB] <;> omega

theorem placeLe_total (a b : TempPlace) : (placeLe a b || placeLe b a) = true := by
  rw [Bool.or_eq_true, placeLe_iff, placeLe_iff]
  cases hA : a.postal_code.isEmpty <;> cases hB : b.postal_code.isEmpty <;>
    simp [hA, hB] <;> omega

theorem placeLe_trans (a b c : TempPlace) : placeLe a b = true → placeLe b c = true →
    placeLe a c = true := by
  rw [placeLe_iff, placeLe_iff, placeLe_iff]
  cases hA : a.postal_code.isEmpty <;> cases hB : b.postal_code.isEmpty <;>
    cases hC : c.postal_code.isEmpty <;> simp [hA, hB, hC] <;> omega

theorem beats_not_le (w l : TempPlace) (h : beats w l) : placeLe l w = false := by
  have hiff := placeLe_iff l w
  cases hb : placeLe l w
  · rfl
  · exfalso
    rw [hb] at hiff
    have hlw := hiff.mp rfl
    rcases h with hlen | ⟨hlen, hw, hl⟩
    · rcases hlw with hc | ⟨hc, _⟩ <;> omega
    · have hwE : w.postal_code.isEmpty = false := by
        cases hwe : w.postal_code.isEmpty
        · rfl
        · exact absurd (List.isEmpty_iff.mp hwe) hw
      have hlE : l.postal_code.isEmpty = true := List.isEmpty_iff.mpr hl
      rcases hlw with hc | ⟨_, hc | hc⟩
      · omega
      · rw [hlE] at hc; exact Bool.noConfusion hc
      · rw [hwE] at hc; exact Bool.noConfusion hc

theorem retainFirst_filter (lst : List TempPlace) :
    ∀ (seen : List (Int × Int)) (k : Int × Int),
      (retainFirst lst seen).filter (fun p => dedupKey p = k) =
        if k ∈ seen then [] else (lst.filter (fun p => dedupKey p = k)).take 1 := by
  induction lst with
  | nil =>
    intro seen k
    simp [retainFirst]
  | cons p rest ih =>
    intro seen k
    by_cases hp : dedupKey p ∈ seen
    · rw [retainFirst, if_pos hp, ih seen k]
      by_cases hk : k ∈ seen
      · rw [if_pos hk, if_pos hk]
      · rw [if_neg hk, if_neg hk]
        have hpk : ¬ dedupKey p = k := fun he => hk (he ▸ hp)
        rw [List.filter_cons, if_neg (fun hc => hpk (of_decide_eq_true hc))]
    · rw [retainFirst, if_neg hp, List.filter_cons]
      by_cases hpk : dedupKey p = k
      · have hk : k ∉ seen := fun hin => hp (hpk ▸ hin)
        rw [if_pos (decide_eq_true hpk), ih (dedupKey p :: seen) k,
          if_pos (List.mem_cons.mpr (Or.inl hpk.symm)), if_neg hk,
          List.filter_cons, if_pos (decide_eq_true hpk)]
        rfl
      · have hmem : (k ∈ dedupKey p :: seen) ↔ k ∈ seen := by
          constructor
          · intro hin
            rcases List.mem_cons.mp hin with he | hin
            · exact absurd he.symm hpk
            · exact hin
          · exact fun hin => List.mem_cons_of_mem _ hin
        rw [if_neg (fun hc => hpk (of_decide_eq_true hc)), ih (dedupKey p :: seen) k,
          if_congr hmem rfl rfl, List.filter_cons,
          if_neg (fun hc => hpk (of_decide_eq_true hc))]

/-- C5: near-duplicate collapse. If exactly two records of the input share
the ~1 km cell `k` (the filter by cell is a permutation of `[w, l]`) and `w`
beats `l` (strictly longer city name, or equal lengths with only `w`
holding a postal code), then `deduplicate_places` keeps exactly `w` in that
cell. -/
theorem dedup_pair_collapse (places : List TempPlace) (k : Int × Int) (w l : TempPlace)
    (hperm : (places.filter (fun p => dedupKey p = k)).Perm [w, l])
    (hbeats : beats w l) :
    (deduplicatePlaces places).filter (fun p => dedupKey p = k) = [w] := by
  unfold deduplicatePlaces
  have hsp : ((places.mergeSort placeLe).filter (fun p => dedupKey p = k)).Perm [w, l] :=
    (List.Perm.filter _ (List.mergeSort_perm places placeLe)).trans hperm
  have hsorted : List.Pairwise (fun a b => placeLe a b = true) (places.mergeSort placeLe) :=
    List.sorted_mergeSort placeLe_trans placeLe_total places
  have hfil : (places.mergeSort placeLe).filter (fun p => dedupKey p = k) = [w, l] := by
    rcases perm_pair_cases hsp with h | h
    · exact h
    · exfalso
      have hps : List.Pairwise (fun a b => placeLe a b = true)
          ((places.mergeSort placeLe).filter (fun p => dedupKey p = k)) :=
        List.Pairwise.sublist (List.filter_sublist _) hsorted
      rw [h] at hps
      have hlw : placeLe l w = true := (List.pairwise_cons.mp hps).1 w (by simp)
      rw [beats_not_le w l hbeats] at hlw
      exact Bool.noConfusion hlw
  rw [retainFirst_filter, if_neg (List.not_mem_nil k), hfil]
  rfl

/-- Witness for C5: two records in cell (0, 0), the second with the longer
city name; it alone survives in that cell. -/
theorem dedup_pair_collapse_witness :
    (deduplicatePlaces
        [⟨[67], [], [], [], [], [], [], 7, 7⟩, ⟨[65, 66], [], [], [], [], [], [], 5, 5⟩]).filter
      (fun p => dedupKey p = (0, 0)) = [⟨[65, 66], [], [], [], [], [], [], 5, 5⟩] :=
  dedup_pair_collapse
    [⟨[67], [], [], [], [], [], [], 7, 7⟩, ⟨[65, 66], [], [], [], [], [], [], 5, 5⟩]
    (0, 0) ⟨[65, 66], [], [], [], [], [], [], 5, 5⟩ ⟨[67], [], [], [], [], [], [], 7, 7⟩
    (by decide) (by decide)


theorem intern_find_none (st : InternState) (hInv : InternInv st) (s : List Nat) :
    st.map.find? (fun e => e.1 = s) = none ↔ s ∉ st.strings := by
  obtain ⟨_hnd, hmap, hsurj⟩ := hInv
  constructor
  · intro hf hs
    obtain ⟨e, he, he1⟩ := hsurj s hs
    have := List.find?_eq_none.mp hf e he
    simp [he1] at this
  · intro hs
    rw [List.find?_eq_none]
    intro e he hpred
    have he1 : e.1 = s := of_decide_eq_true hpred
    obtain ⟨hlt, hgd⟩ := hmap e he
    apply hs
    rw [← he1, ← hgd, List.getD_eq_getElem _ _ hlt]
    exact List.getElem_mem hlt

theorem intern_fresh (st : InternState) (hInv : InternInv st) (s : List Nat)
    (h : s ∉ st.strings) :
    internString s st =
      (st.strings.length, ⟨(s, st.strings.length) :: st.map, st.strings ++ [s]⟩) := by
  unfold internString
  rw [(intern_find_none st hInv s).mpr h]

theorem intern_mem (st : InternState) (hInv : InternInv st) (s : List Nat)
    (h : s ∈ st.strings) :
    (internString s st).2 = st ∧ (internString s st).1 < st.strings.length ∧
      st.strings.getD (internString s st).1 [] = s := by
  obtain ⟨hnd, hmap, hsurj⟩ := hInv
  unfold internString
  cases hf : st.map.find? (fun e => e.1 = s) with
  | none =>
    exact absurd h ((intern_find_none st ⟨hnd, hmap, hsurj⟩ s).mp hf)
  | some e =>
    have he : e ∈ st.map := List.mem_of_find?_eq_some hf
    have he1 : e.1 = s := by
      have := List.find?_some (p := fun x : List Nat × Nat => decide (x.1 = s)) hf
      simpa using this
    obtain ⟨hlt, hgd⟩ := hmap e he
    exact ⟨rfl, hlt, by rw [hgd, he1]⟩

theorem intern_inv_step (st : InternState) (s : List Nat) (hInv : InternInv st) :
    InternInv (internString s st).2 := by
  by_cases h : s ∈ st.strings
  · rw [(intern_mem st hInv s h).1]
    exact hInv
  · rw [intern_fresh st hInv s h]
    obtain ⟨hnd, hmap, hsurj⟩ := hInv
    refine ⟨?_, ?_, ?_⟩
    · rw [List.nodup_append]
      refine ⟨hnd, List.nodup_singleton s, ?_⟩
      intro t ht hts
      simp only [List.mem_singleton] at hts
      subst hts
      exact h ht
    · intro e he
      rcases List.mem_cons.mp he with rfl | he
    
      · refine ⟨by simp, ?_⟩
        rw [List.getD_eq_getElem _ _ (by simp)]
        exact List.getElem_concat_length st.strings s _ rfl _
      · obtain ⟨hlt, hgd⟩ := hmap e he
        refine ⟨by simp only [List.length_append, List.length_singleton]; omega, ?_⟩
        rw [List.getD_append _ _ _ _ hlt]
        exact hgd
    · intro t ht
      rcases List.mem_append.mp ht with ht | ht
      · obtain ⟨e, he, he1⟩ := hsurj t ht
        exact ⟨e, List.mem_cons_of_mem _ he, he1⟩
      · simp only [List.mem_singleton] at ht
        subst ht
        exact ⟨(t, st.strings.length), by simp, rfl⟩

theorem intern_inv_init : InternInv internInit := by
  refine ⟨List.nodup_nil, ?_, ?_⟩ <;> simp [internInit]

theorem runIntern_cons (x : List Nat) (r : List (List Nat)) (st : InternState) :
    runIntern (x :: r) st = runIntern r ((internString x st).2) := by
  simp [runIntern]

theorem runIntern_append (l1 l2 : List (List Nat)) (st : InternState) :
    runIntern (l1 ++ l2) st = runIntern l2 (runIntern l1 st) := by
  simp [runIntern, List.foldl_append]

theorem intern_inv_run (l : List (List Nat)) : ∀ st : InternState, InternInv st →
    InternInv (runIntern l st) := by
  induction l with
  | nil => intro st h; exact h
  | cons x r ih =>
    intro st h
    rw [runIntern_cons]
    exact ih _ (intern_inv_step st x h)

theorem intern_step_strings (st : InternState) (s : List Nat) :
    ∃ e0, (internString s st).2.strings = st.strings ++ e0 := by
  unfold internString
  cases hf : st.map.find? (fun e => e.1 = s) with
  | none => exact ⟨[s], rfl⟩
  | some e => exact ⟨[], by simp⟩

theorem run_strings_ext (l : List (List Nat)) : ∀ st : InternState,
    ∃ ext, (runIntern l st).strings = st.strings ++ ext := by
  induction l with
  | nil => intro st; exact ⟨[], by simp [runIntern]⟩
  | cons x r ih =>
    intro st
    obtain ⟨ext, hext⟩ := ih ((internString x st).2)
    obtain ⟨e0, he0⟩ := intern_step_strings st x
    refine ⟨e0 ++ ext, ?_⟩
    rw [runIntern_cons, hext, he0, List.append_assoc]

theorem intern_idem (st : InternState) (hInv : InternInv st) (s : List Nat) :
    (internString s ((internString s st).2)).1 = (internString s st).1 := by
  by_cases h : s ∈ st.strings
  · rw [(intern_mem st hInv s h).1]
  · rw [intern_fresh st hInv s h]
    show (internString s ⟨(s, st.strings.length) :: st.map, st.strings ++ [s]⟩).1 = _
    unfold internString
    rw [List.find?_cons_of_pos _ (by simp)]

theorem intern_self_mem (st : InternState) (hInv : InternInv st) (s : List Nat) :
    s ∈ (internString s st).2.strings := by
  by_cases h : s ∈ st.strings
  · rw [(intern_mem st hInv s h).1]
    exact h
  · rw [intern_fresh st hInv s h]
    simp

theorem nodup_getD_inj (l : List (List Nat)) (hnd : l.Nodup) (i j : Nat)
    (hi : i < l.length) (hj : j < l.length) (h : l.getD i [] = l.getD j []) : i = j := by
  rw [List.getD_eq_getElem _ _ hi, List.getD_eq_getElem _ _ hj] at h
  exact (List.Nodup.getElem_inj_iff hnd).mp h

theorem intern_stable (l : List (List Nat)) (st : InternState) (hInv : InternInv st)
    (s : List Nat) (hs : s ∈ st.strings) :
    (internString s (runIntern l st)).1 = (internString s st).1 ∧
      (internString s (runIntern l st)).2 = runIntern l st := by
  have hInv' : InternInv (runIntern l st) := intern_inv_run l st hInv
  obtain ⟨ext, hext⟩ := run_strings_ext l st
  have hs' : s ∈ (runIntern l st).strings := by
    rw [hext]
    exact List.mem_append_left _ hs
  obtain ⟨hst2, hlt2, hgd2⟩ := intern_mem _ hInv' s hs'
  obtain ⟨_hst1, hlt1, hgd1⟩ := intern_mem st hInv s hs
  refine ⟨?_, hst2⟩
  have hi1 : (internString s st).1 < (runIntern l st).strings.length := by
    rw [hext, List.length_append]
    omega
  have hgd1' : (runIntern l st).strings.getD (internString s st).1 [] = s := by
    rw [hext, List.getD_append _ _ _ _ hlt1]
    exact hgd1
  exact nodup_getD_inj _ hInv'.1 _ _ hlt2 hi1 (by rw [hgd2, hgd1'])

theorem run_mem (l : List (List Nat)) : ∀ st : InternState, InternInv st →
    ∀ t, t ∈ (runIntern l st).strings ↔ t ∈ st.strings ∨ t ∈ l := by
  induction l with
  | nil =>
    intro st _ t
    simp [runIntern]
  | cons x r ih =>
    intro st hInv t
    rw [runIntern_cons, ih _ (intern_inv_step st x hInv) t]
    by_cases h : x ∈ st.strings
    · rw [(intern_mem st hInv x h).1]
      constructor
      · rintro (ht | ht)
        · exact Or.inl ht
        · exact Or.inr (List.mem_cons_of_mem _ ht)
      · rintro (ht | ht)
        · exact Or.inl ht
        · rcases List.mem_cons.mp ht with rfl | ht
          · exact Or.inl h
          · exact Or.inr ht
    · rw [intern_fresh st hInv x h]
      show t ∈ st.strings ++ [x] ∨ t ∈ r ↔ _
      rw [List.mem_append, List.mem_singleton, List.mem_cons]
      tauto

/-- C7: string interner contract. Starting from the empty table: interning a
value not seen before returns the table length before the call and appends
the value; any later call with an equal value returns the index assigned at
the first call and leaves the state untouched; after any call sequence the
table is duplicate-free, holds exactly the values interned, and its size is
the number of distinct values. The interner is a pure function of the call
sequence, so the assignment is deterministic. -/
theorem intern_contract :
    (∀ (pre : List (List Nat)) (s : List Nat), s ∉ pre →
        (internString s (runIntern pre internInit)).1 =
          (runIntern pre internInit).strings.length ∧
        (internString s (runIntern pre internInit)).2.strings =
          (runIntern pre internInit).strings ++ [s]) ∧
      (∀ (pre mid : List (List Nat)) (s : List Nat),
        (internString s (runIntern (pre ++ s :: mid) internInit)).1 =
          (internString s (runIntern pre internInit)).1 ∧
        (internString s (runIntern (pre ++ s :: mid) internInit)).2 =
          runIntern (pre ++ s :: mid) internInit) ∧
      ∀ l : List (List Nat),
        (runIntern l internInit).strings.Nodup ∧
        (∀ t, t ∈ (runIntern l internInit).strings ↔ t ∈ l) ∧
        (runIntern l internInit).strings.length = l.toFinset.card := by
  refine ⟨?_, ?_, ?_⟩
  · intro pre s hs
    have hInv := intern_inv_run pre internInit intern_inv_init
    have hmem : s ∉ (runIntern pre internInit).strings := by
      rw [run_mem pre internInit intern_inv_init s]
      simp [internInit, hs]
    rw [intern_fresh _ hInv s hmem]
    exact ⟨rfl, rfl⟩
  · intro pre mid s
    have hInv1 := intern_inv_run pre internInit intern_inv_init
    have hInv2 := intern_inv_step (runIntern pre internInit) s hInv1
    have hrw : runIntern (pre ++ s :: mid) internInit =
        runIntern mid ((internString s (runIntern pre internInit)).2) := by
      rw [runIntern_append, runIntern_cons]
    have hsmem : s ∈ (internString s (runIntern pre internInit)).2.strings :=
      intern_self_mem _ hInv1 s
    have hstable := intern_stable mid _ hInv2 s hsmem
    constructor
    · rw [hrw, hstable.1]
      exact intern_idem _ hInv1 s
    · rw [hrw, hstable.2]
  · intro l
    have hInv := intern_inv_run l internInit intern_inv_init
    have hmem : ∀ t, t ∈ (runIntern l internInit).strings ↔ t ∈ l := by
      intro t
      rw [run_mem l internInit intern_inv_init t]
      simp [internInit]
    refine ⟨hInv.1, hmem, ?_⟩
    have hfin : (runIntern l internInit).strings.toFinset = l.toFinset :=
      Finset.ext fun t => by simp only [List.mem_toFinset]; exact hmem t
    calc (runIntern l internInit).strings.length
        = (runIntern l internInit).strings.dedup.length := by
          rw [List.dedup_eq_self.mpr hInv.1]
      _ = (runIntern l internInit).strings.toFinset.card :=
          (List.card_toFinset _).symm
      _ = l.toFinset.card := by rw [hfin]

end Genom
